import Mathlib

/-!
Shallow embedding of the supervisory monitoring agent (`master_agent.py`):
the health prober `check_health`, the log fetcher `fetch_logs`, and the
UEBA rule engine `run_ueba_analysis`, together with theorems settling the
specification claims about them.

Modelling conventions:
* Instants are integers (seconds); 5 minutes = 300, 7 days = 604800.
* A raw log entry carries its fields as options: `none` models a JSON
  object missing that key.  The timestamp field is a three-way value:
  missing key, present-but-unparsable, or parsed instant — the outcome of
  `datetime.fromisoformat(log["timestamp"].replace("Z", "+00:00"))`.
* Python dicts are insertion-ordered association lists; `defaultdict(int)`
  is an association list created on first increment; `defaultdict(set)`
  values are duplicate-free lists.
* An exception escaping the analysis is `Except.error ()`; the bare
  `except: continue` around the timestamp parse maps to skipping the entry.
-/

/-- Payload of a log entry's `data` object, as read by the engine:
`data.get("severity")` and `data.get("prediction", {}).get("certainty", 100)`
(the latter before the default is applied). -/
structure LogData where
  severity : Option String
  certainty : Option Int
deriving DecidableEq

/-- Outcome of reading and parsing a log entry's `timestamp` field. -/
inductive TsField where
  | missing
  | malformed
  | valid (t : Int)
deriving DecidableEq

/-- One element of the list returned by the log store. -/
structure RawLog where
  timestamp : TsField
  userId : Option String
  vehicleId : Option String
  logType : Option String
  data : LogData
deriving DecidableEq

/-- The stored value of `issue_records[(user, vehicle)]`. -/
structure IssueRec where
  time : Int
  severity : Option String
  certainty : Int
deriving DecidableEq

/-- `data.get("prediction", {}).get("certainty", 100)`: the certainty of an
issue's prediction, defaulting to 100 when absent. -/
def effCert (d : LogData) : Int :=
  d.certainty.getD 100

/-! ### Association lists (Python dicts preserve insertion order) -/

/-- Dict lookup: first (and, under key uniqueness, only) binding of `a`. -/
def aget {α β : Type} [DecidableEq α] : List (α × β) → α → Option β
  | [], _ => none
  | (k, b) :: r, a => if k = a then some b else aget r a

/-- Dict update `d[a] = f d[a]`, seeding with `s` when the key is absent;
the key keeps its original position, as Python dict assignment does. -/
def aupd {α β : Type} [DecidableEq α] : List (α × β) → α → (β → β) → β → List (α × β)
  | [], a, _, s => [(a, s)]
  | (k, b) :: r, a, f, s => if k = a then (k, f b) :: r else (k, b) :: aupd r a f s

/-- Keys of an association list. -/
def akeys {α β : Type} (l : List (α × β)) : List α :=
  l.map Prod.fst

/-- `user_booking_count[user] += 1` on a `defaultdict(int)`. -/
def bumpCount (l : List (String × Nat)) (u : String) : List (String × Nat) :=
  aupd l u (· + 1) 1

/-- `user_booking_count[u]`, reading 0 for an absent key. -/
def getCount (l : List (String × Nat)) (u : String) : Nat :=
  (aget l u).getD 0

/-- `vehicle_users[v].add(u)` on a `defaultdict(set)`. -/
def addUser (l : List (String × List String)) (v u : String) : List (String × List String) :=
  aupd l v (fun us => if u ∈ us then us else us ++ [u]) [u]

/-- The set of users recorded for vehicle `v` (empty for an absent key). -/
def getUsers (l : List (String × List String)) (v : String) : List String :=
  (aget l v).getD []

/-- `issue_records[(user, vehicle)] = rec` (plain dict assignment). -/
def putIssue (l : List ((String × String) × IssueRec)) (k : String × String)
    (rec : IssueRec) : List ((String × String) × IssueRec) :=
  aupd l k (fun _ => rec) rec

/-! ### Decimal rendering of the booking count (Python `str(count)`) -/

/-- The decimal digit character for `k < 10`. -/
def digitChar10 : Nat → Char
  | 0 => '0' | 1 => '1' | 2 => '2' | 3 => '3' | 4 => '4'
  | 5 => '5' | 6 => '6' | 7 => '7' | 8 => '8' | _ => '9'

/-- Big-endian decimal digits, with structural fuel (`fuel ≥ n` suffices). -/
def natCharsF : Nat → Nat → List Char
  | 0, n => [digitChar10 n]
  | fuel + 1, n =>
    if n < 10 then [digitChar10 n]
    else natCharsF fuel (n / 10) ++ [digitChar10 (n % 10)]

/-- Big-endian decimal digits of a natural number (`"0"` for zero). -/
def natChars (n : Nat) : List Char :=
  natCharsF n n

/-- Decimal string of a natural number, as Python `str` renders it. -/
def natStr (n : Nat) : String :=
  ⟨natChars n⟩

/-! ### Alert message strings (exact f-string texts from the source) -/

/-- `f"Anomaly: {user} created {count} bookings in 5 minutes"` -/
def excessiveMsg (u : String) (c : Nat) : String :=
  "Anomaly: " ++ u ++ " created " ++ natStr c ++ " bookings in 5 minutes"

/-- `f"Suspicious: {user} booked {vehicle} without ISSUE record"` -/
def orphanMsg (u v : String) : String :=
  "Suspicious: " ++ u ++ " booked " ++ v ++ " without ISSUE record"

/-- `f"Ownership anomaly: Vehicle {vehicle} used by multiple users"` -/
def sharedMsg (v : String) : String :=
  "Ownership anomaly: Vehicle " ++ v ++ " used by multiple users"

/-- `f"Risk: HIGH severity issue ignored for {vehicle}"` -/
def riskMsg (v : String) : String :=
  "Risk: HIGH severity issue ignored for " ++ v

/-- `f"Suspicious: {user} booked {vehicle} despite low certainty"` -/
def lowMsg (u v : String) : String :=
  "Suspicious: " ++ u ++ " booked " ++ v ++ " despite low certainty"

/-! ### The aggregation pass of `run_ueba_analysis` -/

/-- The four aggregates built by the single pass over the logs. -/
structure Agg where
  user_booking_count : List (String × Nat)
  vehicle_users : List (String × List String)
  issue_records : List ((String × String) × IssueRec)
  booking_records : List (String × String × Int)
deriving DecidableEq

/-- The aggregates at the start of the pass. -/
def emptyAgg : Agg :=
  ⟨[], [], [], []⟩

/-- Body of the loop once the timestamp has parsed and the required fields
have been read: update `vehicle_users`, then the `ISSUE` branch, then the
`BOOKING` branch (counting only entries with `log_time > five_minutes_ago`). -/
def stepAgg (fma : Int) (agg : Agg) (t : Int) (u v ty : String) (d : LogData) : Agg :=
  let a1 : Agg := { agg with vehicle_users := addUser agg.vehicle_users v u }
  let a2 : Agg :=
    if ty = "ISSUE" then
      { a1 with issue_records := putIssue a1.issue_records (u, v) ⟨t, d.severity, effCert d⟩ }
    else a1
  if ty = "BOOKING" then
    { a2 with
      booking_records := a2.booking_records ++ [(u, v, t)],
      user_booking_count :=
        if fma < t then bumpCount a2.user_booking_count u else a2.user_booking_count }
  else a2

/-- One loop iteration.  A timestamp failure is caught by the bare `except`
and skips the entry; a missing `userId`/`vehicleId`/`logType` raises a
`KeyError` outside the `try`, aborting the whole analysis. -/
def processLog (fma : Int) (agg : Agg) (l : RawLog) : Except Unit Agg :=
  match l.timestamp with
  | .missing => .ok agg
  | .malformed => .ok agg
  | .valid t =>
    match l.userId, l.vehicleId, l.logType with
    | some u, some v, some ty => .ok (stepAgg fma agg t u v ty l.data)
    | _, _, _ => .error ()

/-- The full aggregation loop over the snapshot. -/
def aggregate (fma : Int) : Agg → List RawLog → Except Unit Agg
  | agg, [] => .ok agg
  | agg, l :: ls =>
    match processLog fma agg l with
    | .ok agg' => aggregate fma agg' ls
    | .error e => .error e

/-! ### The five rules -/

/-- Rule 1: excessive booking. -/
def rule1 (agg : Agg) : List String :=
  agg.user_booking_count.filterMap fun p =>
    if 3 < p.2 then some (excessiveMsg p.1 p.2) else none

/-- Rule 2: orphan booking (`(user, vehicle) not in issue_records`). -/
def rule2 (agg : Agg) : List String :=
  agg.booking_records.filterMap fun p =>
    if aget agg.issue_records (p.1, p.2.1) = none then some (orphanMsg p.1 p.2.1) else none

/-- Rule 3: shared vehicle (`len(users) > 1`). -/
def rule3 (agg : Agg) : List String :=
  agg.vehicle_users.filterMap fun p =>
    if 1 < p.2.length then some (sharedMsg p.1) else none

/-- Rule 4: ignored high-severity issue older than `seven_days_ago` with no
booking anywhere for the same (user, vehicle) pair. -/
def rule4 (sda : Int) (agg : Agg) : List String :=
  agg.issue_records.filterMap fun p =>
    if p.2.severity = some "HIGH" then
      if p.2.time < sda then
        if agg.booking_records.any fun b => decide (b.1 = p.1.1 ∧ b.2.1 = p.1.2) then none
        else some (riskMsg p.1.2)
      else none
    else none

/-- Rule 5: booking despite a matching issue with certainty below 50. -/
def rule5 (agg : Agg) : List String :=
  agg.booking_records.filterMap fun p =>
    match aget agg.issue_records (p.1, p.2.1) with
    | some rec => if rec.certainty < 50 then some (lowMsg p.1 p.2.1) else none
    | none => none

/-- `run_ueba_analysis`: early-out on an empty snapshot, otherwise one
aggregation pass, the five rules, and `list(set(alerts))` at the end.
`Except.error ()` models the `KeyError` escaping the function. -/
def run_ueba_analysis (logs : List RawLog) (now : Int) : Except Unit (List String) :=
  if logs = [] then .ok []
  else
    match aggregate (now - 300) emptyAgg logs with
    | .error e => .error e
    | .ok agg =>
      .ok (rule1 agg ++ rule2 agg ++ rule3 agg ++ rule4 (now - 604800) agg ++ rule5 agg).dedup

/-! ### The log fetcher -/

/-- What the `requests.get(LOGS_API)` call produced: a response with a
status code and a JSON body, or a raised transport exception. -/
inductive Payload where
  | list (logs : List RawLog)
  | nonList
deriving DecidableEq

/-- Outcome of the HTTP call made by `fetch_logs`. -/
inductive FetchOutcome where
  | success (status : Nat) (payload : Payload)
  | exception
deriving DecidableEq

/-- `fetch_logs`: the new value of `cached_logs`.  The previous cache is a
parameter only to show it is never consulted — every failure path assigns
`cached_logs = []`. -/
def fetch_logs (_prevCache : List RawLog) (o : FetchOutcome) : List RawLog :=
  match o with
  | .success status payload =>
    if status = 200 then
      match payload with
      | .list logs => logs
      | .nonList => []
    else []
  | .exception => []

/-! ### The health prober -/

/-- Outcome of one `requests.get(url, timeout=5)` probe. -/
inductive ProbeResult where
  | response (status : Nat)
  | failure
deriving DecidableEq

/-- Classification of one probe outcome, from the `try`/`except` in
`check_health`. -/
def classify_probe : ProbeResult → String
  | .response code => if code = 200 then "ONLINE" else "ERROR " ++ natStr code
  | .failure => "DOWN"

/-- The keys of the `SERVICES` table. -/
def SERVICES : List String :=
  ["Messaging_API", "Admin_API", "Car_API", "Vendor_API", "Model_API",
   "Booking_API", "Calling_API"]

/-- `check_health`: one probe per configured service, building the
`status_report` dict that replaces `health_status`. -/
def check_health (services : List String) (probe : String → ProbeResult) :
    List (String × String) :=
  services.map fun name => (name, classify_probe (probe name))

/-! ### Generic association-list lemmas -/

theorem aget_aupd {α β : Type} [DecidableEq α] (l : List (α × β)) (a : α) (f : β → β)
    (s : β) (b : α) :
    aget (aupd l a f s) b = if b = a then some ((aget l a).elim s f) else aget l b := by
  induction l with
  | nil =>
    by_cases hb : b = a
    · simp [aget, aupd, hb]
    · simp [aget, aupd, hb, Ne.symm hb]
  | cons p r ih =>
    obtain ⟨k, x⟩ := p
    by_cases hk : k = a
    · subst hk
      by_cases hb : b = k
      · subst hb
        simp [aget, aupd]
      · simp [aget, aupd, hb, Ne.symm hb]
    · by_cases hb : b = k
      · subst hb
        simp [aget, aupd, hk, Ne.symm hk]
      · simp [aget, aupd, hk, hb, Ne.symm hb, ih]

theorem aget_eq_none_iff {α β : Type} [DecidableEq α] (l : List (α × β)) (a : α) :
    aget l a = none ↔ a ∉ akeys l := by
  induction l with
  | nil => simp [aget, akeys]
  | cons p r ih =>
    obtain ⟨k, x⟩ := p
    by_cases hk : k = a
    · subst hk
      simp [aget, akeys]
    · simp only [aget, akeys, List.map_cons, List.mem_cons, if_neg hk]
      rw [show akeys r = List.map Prod.fst r from rfl] at ih
      simp [ih, Ne.symm hk]

theorem akeys_aupd {α β : Type} [DecidableEq α] (l : List (α × β)) (a : α) (f : β → β)
    (s : β) :
    akeys (aupd l a f s) = if a ∈ akeys l then akeys l else akeys l ++ [a] := by
  induction l with
  | nil => simp [aupd, akeys]
  | cons p r ih =>
    obtain ⟨k, x⟩ := p
    by_cases hk : k = a
    · subst hk
      simp [aupd, akeys]
    · have hmemc : (a ∈ akeys ((k, x) :: r)) ↔ a ∈ akeys r := by
        simp [akeys, Ne.symm hk]
      by_cases hm : a ∈ akeys r
      · rw [if_pos (hmemc.mpr hm)]
        simp only [akeys, List.map_cons] at *
        simp [aupd, if_neg hk, ih, hm]
      · rw [if_neg (fun h => hm (hmemc.mp h))]
        simp only [akeys, List.map_cons] at *
        simp [aupd, if_neg hk, ih, hm]

theorem nodup_akeys_aupd {α β : Type} [DecidableEq α] (l : List (α × β)) (a : α)
    (f : β → β) (s : β) (h : (akeys l).Nodup) : (akeys (aupd l a f s)).Nodup := by
  rw [akeys_aupd]
  by_cases hm : a ∈ akeys l
  · simpa [hm] using h
  · rw [if_neg hm]
    rw [List.nodup_append]
    refine ⟨h, List.nodup_singleton a, ?_⟩
    intro x hx hxa
    rw [List.mem_singleton] at hxa
    exact hm (hxa ▸ hx)

theorem mem_iff_aget {α β : Type} [DecidableEq α] (l : List (α × β)) (a : α) (b : β)
    (h : (akeys l).Nodup) : (a, b) ∈ l ↔ aget l a = some b := by
  induction l with
  | nil => simp [aget]
  | cons p r ih =>
    obtain ⟨k, x⟩ := p
    rw [show akeys ((k, x) :: r) = k :: akeys r from rfl, List.nodup_cons] at h
    obtain ⟨hknr, hr⟩ := h
    by_cases hka : k = a
    · subst hka
      simp only [aget, if_pos rfl, List.mem_cons]
      constructor
      · rintro (h' | h')
        · injection h' with h1 h2
          rw [h2]
          simp
        · exact absurd (List.mem_map_of_mem Prod.fst h') hknr
      · intro h'
        exact Or.inl (by rw [Option.some_inj.mp h'])
    · simp only [aget, if_neg hka, List.mem_cons]
      rw [← ih hr]
      constructor
      · rintro (h' | h')
        · exact absurd ((Prod.mk.injEq _ _ _ _).mp h').1.symm hka
        · exact h'
      · exact Or.inr

/-! ### Snapshot-level characterizations -/

/-- The view of a log entry as the loop reads it: parsed timestamp and the
three required common fields. -/
def entryView (l : RawLog) : Option (Int × String × String × String) :=
  match l.timestamp with
  | .valid t =>
    match l.userId, l.vehicleId, l.logType with
    | some u, some v, some ty => some (t, u, v, ty)
    | _, _, _ => none
  | _ => none

/-- Number of processed `BOOKING` entries for user `u` whose timestamp is
strictly after `five_minutes_ago`. -/
def wCountF (fma : Int) (u : String) : List RawLog → Nat
  | [] => 0
  | l :: ls =>
    (match entryView l with
     | some (t, u', _, ty) => if ty = "BOOKING" ∧ u' = u ∧ fma < t then 1 else 0
     | none => 0) + wCountF fma u ls

/-- All processed `BOOKING` entries, in order, as (user, vehicle, time). -/
def bookingsOf : List RawLog → List (String × String × Int)
  | [] => []
  | l :: ls =>
    (match entryView l with
     | some (t, u, v, ty) => if ty = "BOOKING" then [(u, v, t)] else []
     | none => []) ++ bookingsOf ls

/-- The issue record entry `l` would store under key `(u, v)`, if any. -/
def issueOf (u v : String) (l : RawLog) : Option IssueRec :=
  match entryView l with
  | some (t, u', v', ty) =>
    if ty = "ISSUE" ∧ u' = u ∧ v' = v then some ⟨t, l.data.severity, effCert l.data⟩
    else none
  | none => none

/-- The most recently seen (in iteration order) issue record for `(u, v)`. -/
def latestIssueSpec : List RawLog → String → String → Option IssueRec
  | [], _, _ => none
  | l :: ls, u, v => (latestIssueSpec ls u v).or (issueOf u v l)

/-- User `u` appears, with any log type, on a processed entry for vehicle `v`. -/
def touchesVehicle (logs : List RawLog) (v u : String) : Prop :=
  ∃ l ∈ logs, ∃ t ty, entryView l = some (t, u, v, ty)

/-! ### Effect of one fully processed entry on each aggregate -/

theorem getCount_bumpCount (l : List (String × Nat)) (u w : String) :
    getCount (bumpCount l u) w = getCount l w + if w = u then 1 else 0 := by
  unfold getCount bumpCount
  rw [aget_aupd]
  by_cases hw : w = u
  · subst hw
    cases h : aget l w <;> simp [h]
  · simp [hw]

theorem aget_putIssue (l : List ((String × String) × IssueRec)) (k k' : String × String)
    (rec : IssueRec) :
    aget (putIssue l k rec) k' = if k' = k then some rec else aget l k' := by
  unfold putIssue
  rw [aget_aupd]
  by_cases h : k' = k
  · subst h
    cases aget l k' <;> simp
  · simp [h]

theorem mem_getUsers_addUser (l : List (String × List String)) (v u x w : String) :
    x ∈ getUsers (addUser l v u) w ↔ x ∈ getUsers l w ∨ (w = v ∧ x = u) := by
  unfold getUsers addUser
  rw [aget_aupd]
  by_cases hw : w = v
  · subst hw
    cases h : aget l w with
    | none => simp [h]
    | some us =>
      by_cases hu : u ∈ us
      · simp only [h, if_pos rfl, Option.elim, Option.getD, if_pos hu]
        exact ⟨fun h' => Or.inl h', fun h' => h'.elim id (fun hx => hx.2 ▸ hu)⟩
      · simp [h, hu]
  · simp [hw]

theorem stepAgg_count (fma t : Int) (agg : Agg) (u v ty : String) (d : LogData)
    (w : String) :
    getCount (stepAgg fma agg t u v ty d).user_booking_count w =
      getCount agg.user_booking_count w +
        (if ty = "BOOKING" ∧ w = u ∧ fma < t then 1 else 0) := by
  by_cases hI : ty = "ISSUE" <;> by_cases hB : ty = "BOOKING"
  · rw [hI] at hB
    exact absurd hB (by decide)
  · simp [stepAgg, hI, hB]
  · by_cases ht : fma < t
    · simp [stepAgg, hI, hB, ht, getCount_bumpCount]
    · simp [stepAgg, hI, hB, ht]
  · simp [stepAgg, hI, hB]

theorem stepAgg_book (fma t : Int) (agg : Agg) (u v ty : String) (d : LogData) :
    (stepAgg fma agg t u v ty d).booking_records =
      agg.booking_records ++ (if ty = "BOOKING" then [(u, v, t)] else []) := by
  by_cases hI : ty = "ISSUE" <;> by_cases hB : ty = "BOOKING"
  · rw [hI] at hB
    exact absurd hB (by decide)
  · simp [stepAgg, hI, hB]
  · simp [stepAgg, hI, hB]
  · simp [stepAgg, hI, hB]

theorem stepAgg_issue (fma t : Int) (agg : Agg) (u v ty : String) (d : LogData)
    (k : String × String) :
    aget (stepAgg fma agg t u v ty d).issue_records k =
      if ty = "ISSUE" ∧ k = (u, v) then some ⟨t, d.severity, effCert d⟩
      else aget agg.issue_records k := by
  by_cases hI : ty = "ISSUE" <;> by_cases hB : ty = "BOOKING"
  · rw [hI] at hB
    exact absurd hB (by decide)
  · simp [stepAgg, hI, hB, aget_putIssue]
  · simp [stepAgg, hI, hB]
  · simp [stepAgg, hI, hB]

theorem stepAgg_users (fma t : Int) (agg : Agg) (u v ty : String) (d : LogData)
    (x w : String) :
    x ∈ getUsers (stepAgg fma agg t u v ty d).vehicle_users w ↔
      x ∈ getUsers agg.vehicle_users w ∨ (w = v ∧ x = u) := by
  by_cases hI : ty = "ISSUE" <;> by_cases hB : ty = "BOOKING"
  · rw [hI] at hB
    exact absurd hB (by decide)
  · simp [stepAgg, hI, hB, mem_getUsers_addUser]
  · simp [stepAgg, hI, hB, mem_getUsers_addUser]
  · simp [stepAgg, hI, hB, mem_getUsers_addUser]

/-- An `ok` outcome of one iteration: the entry was either skipped on its
timestamp, or fully processed. -/
theorem processLog_ok_cases (fma : Int) (agg : Agg) (l : RawLog) (agg₁ : Agg)
    (h : processLog fma agg l = .ok agg₁) :
    (entryView l = none ∧ agg₁ = agg) ∨
    (∃ t u v ty, entryView l = some (t, u, v, ty) ∧
      agg₁ = stepAgg fma agg t u v ty l.data) := by
  obtain ⟨ts, uid, vid, lty, d⟩ := l
  cases ts with
  | missing =>
    simp only [processLog] at h
    injection h with h
    exact Or.inl ⟨rfl, h.symm⟩
  | malformed =>
    simp only [processLog] at h
    injection h with h
    exact Or.inl ⟨rfl, h.symm⟩
  | valid t =>
    cases uid with
    | none => simp [processLog] at h
    | some u =>
      cases vid with
      | none => simp [processLog] at h
      | some v =>
        cases lty with
        | none => simp [processLog] at h
        | some ty =>
          simp only [processLog] at h
          injection h with h
          exact Or.inr ⟨t, u, v, ty, rfl, h.symm⟩

/-! ### The aggregation loop versus the snapshot -/

theorem aggregate_count (fma : Int) (logs : List RawLog) :
    ∀ agg agg' : Agg, aggregate fma agg logs = .ok agg' →
    ∀ w, getCount agg'.user_booking_count w =
      getCount agg.user_booking_count w + wCountF fma w logs := by
  induction logs with
  | nil =>
    intro agg agg' h w
    simp only [aggregate] at h
    injection h with h
    simp [h, wCountF]
  | cons l ls ih =>
    intro agg agg' h w
    simp only [aggregate] at h
    cases hp : processLog fma agg l with
    | error e =>
      rw [hp] at h
      simp at h
    | ok agg₁ =>
      rw [hp] at h
      rcases processLog_ok_cases fma agg l agg₁ hp with ⟨hv, rfl⟩ | ⟨t, u', v', ty', hv, rfl⟩
      · rw [ih _ agg' h w]
        simp [wCountF, hv]
      · rw [ih _ agg' h w, stepAgg_count]
        simp only [wCountF, hv]
        by_cases hc : ty' = "BOOKING" ∧ u' = w ∧ fma < t
        · rw [if_pos ⟨hc.1, hc.2.1.symm, hc.2.2⟩, if_pos hc]
          omega
        · rw [if_neg (fun hc' => hc ⟨hc'.1, hc'.2.1.symm, hc'.2.2⟩), if_neg hc]
          omega

theorem aggregate_book (fma : Int) (logs : List RawLog) :
    ∀ agg agg' : Agg, aggregate fma agg logs = .ok agg' →
    agg'.booking_records = agg.booking_records ++ bookingsOf logs := by
  induction logs with
  | nil =>
    intro agg agg' h
    simp only [aggregate] at h
    injection h with h
    simp [h, bookingsOf]
  | cons l ls ih =>
    intro agg agg' h
    simp only [aggregate] at h
    cases hp : processLog fma agg l with
    | error e =>
      rw [hp] at h
      simp at h
    | ok agg₁ =>
      rw [hp] at h
      rcases processLog_ok_cases fma agg l agg₁ hp with ⟨hv, rfl⟩ | ⟨t, u', v', ty', hv, rfl⟩
      · rw [ih _ agg' h]
        simp [bookingsOf, hv]
      · rw [ih _ agg' h, stepAgg_book]
        simp [bookingsOf, hv, List.append_assoc]

theorem aggregate_issue (fma : Int) (logs : List RawLog) :
    ∀ agg agg' : Agg, aggregate fma agg logs = .ok agg' →
    ∀ k : String × String, aget agg'.issue_records k =
      (latestIssueSpec logs k.1 k.2).or (aget agg.issue_records k) := by
  induction logs with
  | nil =>
    intro agg agg' h k
    simp only [aggregate] at h
    injection h with h
    simp [h, latestIssueSpec]
  | cons l ls ih =>
    intro agg agg' h k
    simp only [aggregate] at h
    cases hp : processLog fma agg l with
    | error e =>
      rw [hp] at h
      simp at h
    | ok agg₁ =>
      rw [hp] at h
      rcases processLog_ok_cases fma agg l agg₁ hp with ⟨hv, rfl⟩ | ⟨t, u', v', ty', hv, rfl⟩
      · rw [ih _ agg' h k]
        simp [latestIssueSpec, issueOf, hv]
      · rw [ih _ agg' h k, stepAgg_issue]
        rw [latestIssueSpec, Option.or_assoc]
        have hio : issueOf k.1 k.2 l =
            if ty' = "ISSUE" ∧ u' = k.1 ∧ v' = k.2 then
              some ⟨t, l.data.severity, effCert l.data⟩
            else none := by
          simp [issueOf, hv]
        rw [hio]
        by_cases hc : ty' = "ISSUE" ∧ k = (u', v')
        · rw [if_pos hc, if_pos ⟨hc.1, (congrArg Prod.fst hc.2).symm, (congrArg Prod.snd hc.2).symm⟩]
          simp
        · rw [if_neg hc, if_neg (fun hc' : ty' = "ISSUE" ∧ u' = k.1 ∧ v' = k.2 =>
            hc ⟨hc'.1, Prod.ext hc'.2.1.symm hc'.2.2.symm⟩)]
          simp

theorem touches_cons (l : RawLog) (ls : List RawLog) (v u : String) :
    touchesVehicle (l :: ls) v u ↔
      (∃ t ty, entryView l = some (t, u, v, ty)) ∨ touchesVehicle ls v u := by
  simp [touchesVehicle, List.mem_cons, or_and_right, exists_or]

theorem aggregate_users (fma : Int) (logs : List RawLog) :
    ∀ agg agg' : Agg, aggregate fma agg logs = .ok agg' →
    ∀ x w, x ∈ getUsers agg'.vehicle_users w ↔
      x ∈ getUsers agg.vehicle_users w ∨ touchesVehicle logs w x := by
  induction logs with
  | nil =>
    intro agg agg' h x w
    simp only [aggregate] at h
    injection h with h
    simp [h, touchesVehicle]
  | cons l ls ih =>
    intro agg agg' h x w
    simp only [aggregate] at h
    cases hp : processLog fma agg l with
    | error e =>
      rw [hp] at h
      simp at h
    | ok agg₁ =>
      rw [hp] at h
      rcases processLog_ok_cases fma agg l agg₁ hp with ⟨hv, rfl⟩ | ⟨t, u', v', ty', hv, rfl⟩
      · rw [ih _ agg' h x w, touches_cons]
        simp [hv]
      · rw [ih _ agg' h x w, touches_cons, stepAgg_users]
        have : (∃ t'' ty'', entryView l = some (t'', x, w, ty'')) ↔ (w = v' ∧ x = u') := by
          rw [hv]
          constructor
          · rintro ⟨t'', ty'', he⟩
            injection he with he
            injection he with h1 h2
            injection h2 with h2 h3
            injection h3 with h3 h4
            exact ⟨h3.symm, h2.symm⟩
          · rintro ⟨rfl, rfl⟩
            exact ⟨t, ty', rfl⟩
        rw [this]
        tauto

/-! ### Structural invariants of the aggregates -/

theorem forall_val_aupd {α β : Type} [DecidableEq α] (l : List (α × β)) (a : α)
    (f : β → β) (s : β) (P : β → Prop) (hl : ∀ p ∈ l, P p.2)
    (hf : ∀ b, P b → P (f b)) (hs : P s) :
    ∀ p ∈ aupd l a f s, P p.2 := by
  induction l with
  | nil =>
    intro p hp
    rw [aupd, List.mem_singleton] at hp
    rw [hp]
    exact hs
  | cons q r ih =>
    obtain ⟨k, x⟩ := q
    intro p hp
    rw [aupd] at hp
    by_cases hk : k = a
    · rw [if_pos hk] at hp
      rcases List.mem_cons.mp hp with rfl | hp'
      · exact hf x (hl (k, x) (List.mem_cons_self _ _))
      · exact hl p (List.mem_cons_of_mem _ hp')
    · rw [if_neg hk] at hp
      rcases List.mem_cons.mp hp with rfl | hp'
      · exact hl (k, x) (List.mem_cons_self _ _)
      · exact ih (fun q hq => hl q (List.mem_cons_of_mem _ hq)) p hp'

/-- Key uniqueness of the three dict aggregates, plus duplicate-freeness of
each per-vehicle user set. -/
def aggInv (agg : Agg) : Prop :=
  (akeys agg.user_booking_count).Nodup ∧
  (akeys agg.vehicle_users).Nodup ∧
  (∀ p ∈ agg.vehicle_users, p.2.Nodup) ∧
  (akeys agg.issue_records).Nodup

theorem aggInv_emptyAgg : aggInv emptyAgg := by
  refine ⟨?_, ?_, ?_, ?_⟩ <;> simp [emptyAgg, akeys]

theorem aggInv_stepAgg (fma t : Int) (agg : Agg) (u v ty : String) (d : LogData)
    (h : aggInv agg) : aggInv (stepAgg fma agg t u v ty d) := by
  obtain ⟨h1, h2, h3, h4⟩ := h
  have hvu : (akeys (addUser agg.vehicle_users v u)).Nodup := by
    rw [addUser]
    exact nodup_akeys_aupd _ _ _ _ h2
  have hvals : ∀ p ∈ addUser agg.vehicle_users v u, p.2.Nodup := by
    rw [addUser]
    apply forall_val_aupd _ _ _ _ _ h3
    · intro us hus
      by_cases hu : u ∈ us
      · simpa [hu] using hus
      · rw [if_neg hu, List.nodup_append]
        exact ⟨hus, List.nodup_singleton u,
          fun x hx hxu => hu ((List.mem_singleton.mp hxu) ▸ hx)⟩
    · exact List.nodup_singleton u
  have hbump : ((akeys (bumpCount agg.user_booking_count u)).Nodup) := by
    rw [bumpCount]
    exact nodup_akeys_aupd _ _ _ _ h1
  have hput : ∀ rec, (akeys (putIssue agg.issue_records (u, v) rec)).Nodup := by
    intro rec
    rw [putIssue]
    exact nodup_akeys_aupd _ _ _ _ h4
  by_cases hI : ty = "ISSUE" <;> by_cases hB : ty = "BOOKING"
  · rw [hI] at hB
    exact absurd hB (by decide)
  · exact ⟨by simpa [stepAgg, hI, hB] using h1, by simpa [stepAgg, hI, hB] using hvu,
      by simpa [stepAgg, hI, hB] using hvals, by simpa [stepAgg, hI, hB] using hput _⟩
  · by_cases ht : fma < t
    · exact ⟨by simpa [stepAgg, hI, hB, ht] using hbump,
        by simpa [stepAgg, hI, hB] using hvu,
        by simpa [stepAgg, hI, hB] using hvals, by simpa [stepAgg, hI, hB] using h4⟩
    · exact ⟨by simpa [stepAgg, hI, hB, ht] using h1,
        by simpa [stepAgg, hI, hB] using hvu,
        by simpa [stepAgg, hI, hB] using hvals, by simpa [stepAgg, hI, hB] using h4⟩
  · exact ⟨by simpa [stepAgg, hI, hB] using h1, by simpa [stepAgg, hI, hB] using hvu,
      by simpa [stepAgg, hI, hB] using hvals, by simpa [stepAgg, hI, hB] using h4⟩

theorem aggInv_aggregate (fma : Int) (logs : List RawLog) :
    ∀ agg agg' : Agg, aggregate fma agg logs = .ok agg' → aggInv agg → aggInv agg' := by
  induction logs with
  | nil =>
    intro agg agg' h hi
    simp only [aggregate] at h
    injection h with h
    exact h ▸ hi
  | cons l ls ih =>
    intro agg agg' h hi
    simp only [aggregate] at h
    cases hp : processLog fma agg l with
    | error e =>
      rw [hp] at h
      simp at h
    | ok agg₁ =>
      rw [hp] at h
      rcases processLog_ok_cases fma agg l agg₁ hp with ⟨hv, rfl⟩ | ⟨t, u', v', ty', hv, rfl⟩
      · exact ih _ agg' h hi
      · exact ih _ agg' h (aggInv_stepAgg fma t agg u' v' ty' l.data hi)

/-! ### Properties of the decimal rendering -/

/-- Value of a digit character. -/
def chVal (c : Char) : Nat :=
  c.toNat - 48

/-- Decimal value of a digit string (left fold, most significant first). -/
def strVal (l : List Char) : Nat :=
  l.foldl (fun a c => a * 10 + chVal c) 0

theorem strVal_append_single (xs : List Char) (c : Char) :
    strVal (xs ++ [c]) = strVal xs * 10 + chVal c := by
  simp [strVal]

theorem digit_facts : ∀ k : Nat, k < 10 → chVal (digitChar10 k) = k ∧ digitChar10 k ≠ ' ' := by
  decide

theorem digitChar10_ne_space : ∀ k, digitChar10 k ≠ ' ' := by
  intro k
  match k with
  | 0 | 1 | 2 | 3 | 4 | 5 | 6 | 7 | 8 => decide
  | n + 9 => exact (by decide : ('9' : Char) ≠ ' ')

theorem strVal_natCharsF : ∀ fuel n, n ≤ fuel → strVal (natCharsF fuel n) = n := by
  intro fuel
  induction fuel with
  | zero =>
    intro n hn
    have h0 : n = 0 := Nat.le_zero.mp hn
    subst h0
    decide
  | succ fuel ih =>
    intro n hn
    simp only [natCharsF]
    by_cases h : n < 10
    · rw [if_pos h]
      have hd := (digit_facts n h).1
      simp only [strVal, List.foldl_cons, List.foldl_nil, Nat.zero_mul, Nat.zero_add]
      exact hd
    · rw [if_neg h]
      have hfu : n / 10 ≤ fuel := by omega
      rw [strVal_append_single, ih _ hfu, (digit_facts _ (by omega)).1]
      omega

theorem strVal_natChars : ∀ n, strVal (natChars n) = n := fun n =>
  strVal_natCharsF n n (Nat.le_refl n)

theorem natChars_inj {m n : Nat} (h : natChars m = natChars n) : m = n := by
  have hm := strVal_natChars m
  rw [h, strVal_natChars n] at hm
  exact hm.symm

theorem natCharsF_nospace : ∀ fuel n, ∀ c ∈ natCharsF fuel n, c ≠ ' ' := by
  intro fuel
  induction fuel with
  | zero =>
    intro n c hc
    rw [natCharsF, List.mem_singleton] at hc
    rw [hc]
    exact digitChar10_ne_space n
  | succ fuel ih =>
    intro n c hc
    simp only [natCharsF] at hc
    by_cases h : n < 10
    · rw [if_pos h, List.mem_singleton] at hc
      rw [hc]
      exact digitChar10_ne_space n
    · rw [if_neg h] at hc
      rcases List.mem_append.mp hc with hc' | hc'
      · exact ih _ c hc'
      · rw [List.mem_singleton] at hc'
        rw [hc']
        exact digitChar10_ne_space _

theorem natChars_nospace : ∀ n, ∀ c ∈ natChars n, c ≠ ' ' := fun n =>
  natCharsF_nospace n n

/-! ### Splitting concatenations at a space -/

/-- A space-free block followed by a space determines the decomposition. -/
theorem nospace_split (d₁ : List Char) :
    ∀ (d₂ r₁ r₂ : List Char), (∀ c ∈ d₁, c ≠ ' ') → (∀ c ∈ d₂, c ≠ ' ') →
    d₁ ++ ' ' :: r₁ = d₂ ++ ' ' :: r₂ → d₁ = d₂ ∧ r₁ = r₂ := by
  induction d₁ with
  | nil =>
    intro d₂ r₁ r₂ _ h₂ heq
    cases d₂ with
    | nil => simpa using heq
    | cons c d₂' =>
      simp only [List.nil_append, List.cons_append] at heq
      injection heq with hc _
      exact absurd hc.symm (h₂ c (List.mem_cons_self _ _))
  | cons c d₁' ih =>
    intro d₂ r₁ r₂ h₁ h₂ heq
    cases d₂ with
    | nil =>
      simp only [List.nil_append, List.cons_append] at heq
      injection heq with hc _
      exact absurd hc (h₁ c (List.mem_cons_self _ _))
    | cons c' d₂' =>
      simp only [List.cons_append] at heq
      injection heq with hc htl
      obtain ⟨hd, hr⟩ := ih d₂' r₁ r₂ (fun x hx => h₁ x (List.mem_cons_of_mem _ hx))
        (fun x hx => h₂ x (List.mem_cons_of_mem _ hx)) htl
      exact ⟨by rw [hc, hd], hr⟩

/-! ### Distinguishing and decoding the alert messages -/

theorem head_excessiveMsg (u : String) (c : Nat) :
    (excessiveMsg u c).data.head? = some 'A' := rfl

theorem head_orphanMsg (u v : String) : (orphanMsg u v).data.head? = some 'S' := rfl

theorem head_sharedMsg (v : String) : (sharedMsg v).data.head? = some 'O' := rfl

theorem head_riskMsg (v : String) : (riskMsg v).data.head? = some 'R' := rfl

theorem head_lowMsg (u v : String) : (lowMsg u v).data.head? = some 'S' := rfl

theorem ne_of_head {a b : String} {c d : Char} (ha : a.data.head? = some c)
    (hb : b.data.head? = some d) (hcd : c ≠ d) : a ≠ b := by
  intro h
  rw [h] at ha
  rw [ha] at hb
  injection hb with hb
  exact hcd hb

theorem ne_of_last {a b : String} {c d : Char} (ha : a.data.getLast? = some c)
    (hb : b.data.getLast? = some d) (hcd : c ≠ d) : a ≠ b := by
  intro h
  rw [h] at ha
  rw [ha] at hb
  injection hb with hb
  exact hcd hb

theorem data_orphanMsg (u v : String) :
    (orphanMsg u v).data =
      "Suspicious: ".data ++ (u.data ++ (" booked ".data ++ (v.data ++
        " without ISSUE record".data))) := by
  simp [orphanMsg, String.data_append, List.append_assoc]

theorem data_lowMsg (u v : String) :
    (lowMsg u v).data =
      "Suspicious: ".data ++ (u.data ++ (" booked ".data ++ (v.data ++
        " despite low certainty".data))) := by
  simp [lowMsg, String.data_append, List.append_assoc]

theorem last_orphanMsg (u v : String) : (orphanMsg u v).data.getLast? = some 'd' := by
  rw [data_orphanMsg]
  rw [List.getLast?_append_of_ne_nil _ (by simp), List.getLast?_append_of_ne_nil _ (by simp),
    List.getLast?_append_of_ne_nil _ (by simp), List.getLast?_append_of_ne_nil _ (by simp)]
  decide

theorem last_lowMsg (u v : String) : (lowMsg u v).data.getLast? = some 'y' := by
  rw [data_lowMsg]
  rw [List.getLast?_append_of_ne_nil _ (by simp), List.getLast?_append_of_ne_nil _ (by simp),
    List.getLast?_append_of_ne_nil _ (by simp), List.getLast?_append_of_ne_nil _ (by simp)]
  decide

theorem str_eq_of_data {a b : String} (h : a.data = b.data) : a = b := by
  cases a
  cases b
  exact congrArg String.mk h

theorem data_natStr (c : Nat) : (natStr c).data = natChars c := rfl

theorem data_excessiveMsg (u : String) (c : Nat) :
    (excessiveMsg u c).data =
      "Anomaly: ".data ++ (u.data ++ (" created ".data ++ (natChars c ++
        " bookings in 5 minutes".data))) := by
  simp [excessiveMsg, String.data_append, data_natStr, List.append_assoc]

theorem excessiveMsg_inj {u₁ u₂ : String} {c₁ c₂ : Nat}
    (h : excessiveMsg u₁ c₁ = excessiveMsg u₂ c₂) : u₁ = u₂ ∧ c₁ = c₂ := by
  have hd := congrArg String.data h
  rw [data_excessiveMsg, data_excessiveMsg] at hd
  have hd1 := List.append_cancel_left hd
  have hr := congrArg List.reverse hd1
  simp only [List.reverse_append, List.append_assoc] at hr
  have hr2 := List.append_cancel_left hr
  have hM : ∀ x : List Char,
      " created ".data.reverse ++ x = ' ' :: ("detaerc ".data ++ x) := fun x => rfl
  rw [hM, hM] at hr2
  obtain ⟨hn, hR⟩ := nospace_split _ _ _ _
    (fun x hx => natChars_nospace c₁ x (List.mem_reverse.mp hx))
    (fun x hx => natChars_nospace c₂ x (List.mem_reverse.mp hx)) hr2
  constructor
  · exact str_eq_of_data (List.reverse_inj.mp (List.append_cancel_left hR))
  · exact natChars_inj (List.reverse_inj.mp hn)

theorem riskMsg_inj {v₁ v₂ : String} (h : riskMsg v₁ = riskMsg v₂) : v₁ = v₂ := by
  have hd := congrArg String.data h
  simp only [riskMsg, String.data_append] at hd
  exact str_eq_of_data (List.append_cancel_left hd)

theorem sharedMsg_inj {v₁ v₂ : String} (h : sharedMsg v₁ = sharedMsg v₂) : v₁ = v₂ := by
  have hd := congrArg String.data h
  simp only [sharedMsg, String.data_append, List.append_assoc] at hd
  exact str_eq_of_data (List.append_cancel_right (List.append_cancel_left hd))

/-! ### Shapes of each rule's emissions -/

theorem mem_rule1_iff (agg : Agg) (s : String) :
    s ∈ rule1 agg ↔ ∃ u c, (u, c) ∈ agg.user_booking_count ∧ 3 < c ∧
      s = excessiveMsg u c := by
  simp only [rule1, List.mem_filterMap]
  constructor
  · rintro ⟨p, hp, hif⟩
    by_cases h3 : 3 < p.2
    · rw [if_pos h3] at hif
      exact ⟨p.1, p.2, hp, h3, (Option.some_inj.mp hif).symm⟩
    · rw [if_neg h3] at hif
      cases hif
  · rintro ⟨u, c, hm, h3, rfl⟩
    exact ⟨(u, c), hm, by rw [if_pos h3]⟩

theorem mem_rule2_iff (agg : Agg) (s : String) :
    s ∈ rule2 agg ↔ ∃ u v t, (u, v, t) ∈ agg.booking_records ∧
      aget agg.issue_records (u, v) = none ∧ s = orphanMsg u v := by
  simp only [rule2, List.mem_filterMap]
  constructor
  · rintro ⟨p, hp, hif⟩
    by_cases hn : aget agg.issue_records (p.1, p.2.1) = none
    · rw [if_pos hn] at hif
      exact ⟨p.1, p.2.1, p.2.2, hp, hn, (Option.some_inj.mp hif).symm⟩
    · rw [if_neg hn] at hif
      cases hif
  · rintro ⟨u, v, t, hm, hn, rfl⟩
    exact ⟨(u, v, t), hm, by rw [if_pos hn]⟩

theorem mem_rule3_iff (agg : Agg) (s : String) :
    s ∈ rule3 agg ↔ ∃ v us, (v, us) ∈ agg.vehicle_users ∧ 1 < us.length ∧
      s = sharedMsg v := by
  simp only [rule3, List.mem_filterMap]
  constructor
  · rintro ⟨p, hp, hif⟩
    by_cases h1 : 1 < p.2.length
    · rw [if_pos h1] at hif
      exact ⟨p.1, p.2, hp, h1, (Option.some_inj.mp hif).symm⟩
    · rw [if_neg h1] at hif
      cases hif
  · rintro ⟨v, us, hm, h1, rfl⟩
    exact ⟨(v, us), hm, by rw [if_pos h1]⟩

theorem mem_rule4_iff (sda : Int) (agg : Agg) (s : String) :
    s ∈ rule4 sda agg ↔ ∃ u v rec, ((u, v), rec) ∈ agg.issue_records ∧
      rec.severity = some "HIGH" ∧ rec.time < sda ∧
      (∀ b ∈ agg.booking_records, ¬(b.1 = u ∧ b.2.1 = v)) ∧ s = riskMsg v := by
  simp only [rule4, List.mem_filterMap]
  constructor
  · rintro ⟨p, hp, hif⟩
    by_cases h1 : p.2.severity = some "HIGH"
    · rw [if_pos h1] at hif
      by_cases h2 : p.2.time < sda
      · rw [if_pos h2] at hif
        by_cases h3 : (agg.booking_records.any fun b => decide (b.1 = p.1.1 ∧ b.2.1 = p.1.2)) = true
        · rw [if_pos h3] at hif
          cases hif
        · rw [if_neg h3] at hif
          refine ⟨p.1.1, p.1.2, p.2, hp, h1, h2, ?_, (Option.some_inj.mp hif).symm⟩
          intro b hb hbv
          exact h3 (List.any_eq_true.mpr ⟨b, hb, by simpa using hbv⟩)
      · rw [if_neg h2] at hif
        cases hif
    · rw [if_neg h1] at hif
      cases hif
  · rintro ⟨u, v, rec, hm, h1, h2, h3, rfl⟩
    refine ⟨((u, v), rec), hm, ?_⟩
    rw [if_pos h1, if_pos h2, if_neg ?_]
    intro hany
    obtain ⟨b, hb, hbv⟩ := List.any_eq_true.mp hany
    exact h3 b hb (by simpa using hbv)

theorem mem_rule5_iff (agg : Agg) (s : String) :
    s ∈ rule5 agg ↔ ∃ u v t rec, (u, v, t) ∈ agg.booking_records ∧
      aget agg.issue_records (u, v) = some rec ∧ rec.certainty < 50 ∧
      s = lowMsg u v := by
  simp only [rule5, List.mem_filterMap]
  constructor
  · rintro ⟨p, hp, hif⟩
    cases hg : aget agg.issue_records (p.1, p.2.1) with
    | none =>
      simp only [hg] at hif
      cases hif
    | some rec =>
      simp only [hg] at hif
      by_cases hc : rec.certainty < 50
      · rw [if_pos hc] at hif
        exact ⟨p.1, p.2.1, p.2.2, rec, hp, hg, hc, (Option.some_inj.mp hif).symm⟩
      · rw [if_neg hc] at hif
        cases hif
  · rintro ⟨u, v, t, rec, hm, hg, hc, rfl⟩
    refine ⟨(u, v, t), hm, ?_⟩
    simp [hg, hc]

/-! ### Unpacking a successful run -/

theorem run_ok_elim (logs : List RawLog) (now : Int) (alerts : List String)
    (hne : logs ≠ []) (h : run_ueba_analysis logs now = .ok alerts) :
    ∃ agg, aggregate (now - 300) emptyAgg logs = .ok agg ∧
      alerts = (rule1 agg ++ rule2 agg ++ rule3 agg ++ rule4 (now - 604800) agg ++
        rule5 agg).dedup := by
  rw [run_ueba_analysis, if_neg hne] at h
  cases ha : aggregate (now - 300) emptyAgg logs with
  | error e =>
    simp only [ha] at h
    exact Except.noConfusion h
  | ok agg =>
    simp only [ha] at h
    injection h with h
    exact ⟨agg, rfl, h.symm⟩

theorem mem_concat5 (agg : Agg) (sda : Int) (s : String) :
    s ∈ (rule1 agg ++ rule2 agg ++ rule3 agg ++ rule4 sda agg ++ rule5 agg).dedup ↔
      s ∈ rule1 agg ∨ s ∈ rule2 agg ∨ s ∈ rule3 agg ∨ s ∈ rule4 sda agg ∨
        s ∈ rule5 agg := by
  simp [List.mem_dedup, List.mem_append, or_assoc]

theorem run_ueba_nodup (logs : List RawLog) (now : Int) (alerts : List String)
    (h : run_ueba_analysis logs now = .ok alerts) : alerts.Nodup := by
  by_cases hne : logs = []
  · rw [run_ueba_analysis, if_pos hne] at h
    injection h with h
    rw [← h]
    exact List.nodup_nil
  · obtain ⟨agg, _, rfl⟩ := run_ok_elim logs now alerts hne h
    exact List.nodup_dedup _

theorem aget_of_getCount (l : List (String × Nat)) (u : String)
    (h : getCount l u ≠ 0) : aget l u = some (getCount l u) := by
  unfold getCount at *
  cases hg : aget l u with
  | none =>
    rw [hg] at h
    simp at h
  | some c => rfl

theorem aget_of_getUsers (l : List (String × List String)) (v : String)
    (h : getUsers l v ≠ []) : aget l v = some (getUsers l v) := by
  unfold getUsers at *
  cases hg : aget l v with
  | none =>
    rw [hg] at h
    simp at h
  | some us => rfl

theorem one_lt_length_iff_two_distinct (us : List String) (hnd : us.Nodup) :
    1 < us.length ↔ ∃ a ∈ us, ∃ b ∈ us, a ≠ b := by
  constructor
  · intro h
    cases us with
    | nil => simp at h
    | cons a us' =>
      cases us' with
      | nil => simp at h
      | cons b rest =>
        refine ⟨a, List.mem_cons_self _ _, b, List.mem_cons_of_mem _ (List.mem_cons_self _ _), ?_⟩
        intro hab
        exact (List.nodup_cons.mp hnd).1 (hab ▸ List.mem_cons_self _ _)
  · rintro ⟨a, ha, b, hb, hab⟩
    cases us with
    | nil => simp at ha
    | cons x us' =>
      cases us' with
      | nil =>
        rw [List.mem_singleton] at ha hb
        exact absurd (ha.trans hb.symm) hab
      | cons y rest => simp [List.length_cons]

/-! ### Concrete sample entries used by witnesses -/

/-- A well-formed `BOOKING` entry. -/
def sampleBooking (u v : String) (t : Int) : RawLog :=
  ⟨.valid t, some u, some v, some "BOOKING", ⟨none, none⟩⟩

/-- A well-formed `ISSUE` entry. -/
def sampleIssue (u v : String) (t : Int) (sev : String) (cert : Option Int) : RawLog :=
  ⟨.valid t, some u, some v, some "ISSUE", ⟨some sev, cert⟩⟩

/-- Four rapid bookings by the same user. -/
def burstLogs : List RawLog :=
  [sampleBooking "u1" "v1" 800, sampleBooking "u1" "v1" 900,
   sampleBooking "u1" "v1" 950, sampleBooking "u1" "v1" 1000]

/-- C3: for every non-empty snapshot whose analysis completes, the
excessive-booking alert for user `u` with count `c` is published exactly when
`c` is the number of `BOOKING` entries of `u` timestamped strictly inside the
trailing 5-minute window and `c` exceeds 3; `BOOKING` entries outside the
window (at or before `now - 300`) do not count. -/
theorem excessive_booking_rule_correct :
    ∀ (logs : List RawLog) (now : Int) (alerts : List String),
      logs ≠ [] → run_ueba_analysis logs now = .ok alerts →
      ∀ u c, excessiveMsg u c ∈ alerts ↔
        (c = wCountF (now - 300) u logs ∧ 3 < c) := by
  intro logs now alerts hne h u c
  obtain ⟨agg, ha, rfl⟩ := run_ok_elim logs now alerts hne h
  have hinv := aggInv_aggregate _ _ _ _ ha aggInv_emptyAgg
  have hcount := aggregate_count _ _ _ _ ha
  rw [mem_concat5]
  constructor
  · rintro (h1 | h2 | h3 | h4 | h5)
    · obtain ⟨u', c', hm, h3', heq⟩ := (mem_rule1_iff agg _).mp h1
      obtain ⟨rfl, rfl⟩ := excessiveMsg_inj heq
      have hg : aget agg.user_booking_count u = some c :=
        (mem_iff_aget _ _ _ hinv.1).mp hm
      have hgc : getCount agg.user_booking_count u = c := by
        rw [getCount, hg]
        rfl
      have hzero : getCount emptyAgg.user_booking_count u = 0 := rfl
      have hw := hcount u
      rw [hzero, Nat.zero_add, hgc] at hw
      exact ⟨hw, h3'⟩
    · obtain ⟨u', v', t, _, _, heq⟩ := (mem_rule2_iff agg _).mp h2
      exact absurd heq (ne_of_head (head_excessiveMsg u c) (head_orphanMsg u' v') (by decide))
    · obtain ⟨v', us, _, _, heq⟩ := (mem_rule3_iff agg _).mp h3
      exact absurd heq (ne_of_head (head_excessiveMsg u c) (head_sharedMsg v') (by decide))
    · obtain ⟨u', v', rec, _, _, _, _, heq⟩ := (mem_rule4_iff _ agg _).mp h4
      exact absurd heq (ne_of_head (head_excessiveMsg u c) (head_riskMsg v') (by decide))
    · obtain ⟨u', v', t, rec, _, _, _, heq⟩ := (mem_rule5_iff agg _).mp h5
      exact absurd heq (ne_of_head (head_excessiveMsg u c) (head_lowMsg u' v') (by decide))
  · rintro ⟨rfl, h3c⟩
    have hzero : getCount emptyAgg.user_booking_count u = 0 := rfl
    have hw := hcount u
    rw [hzero, Nat.zero_add] at hw
    have hne0 : getCount agg.user_booking_count u ≠ 0 := by omega
    have hg := aget_of_getCount _ _ hne0
    rw [hw] at hg
    have hm : (u, wCountF (now - 300) u logs) ∈ agg.user_booking_count :=
      (mem_iff_aget _ _ _ hinv.1).mpr hg
    exact Or.inl ((mem_rule1_iff agg _).mpr ⟨u, _, hm, h3c, rfl⟩)

/-- C7: for every non-empty snapshot whose analysis completes, the
shared-vehicle alert for vehicle `v` is published exactly when two distinct
users appear (with any log type) on processed entries for `v`, and it occurs
exactly once in the published list. -/
theorem shared_vehicle_rule_correct :
    ∀ (logs : List RawLog) (now : Int) (alerts : List String),
      logs ≠ [] → run_ueba_analysis logs now = .ok alerts →
      ∀ v, (sharedMsg v ∈ alerts ↔
          ∃ u₁ u₂, u₁ ≠ u₂ ∧ touchesVehicle logs v u₁ ∧ touchesVehicle logs v u₂) ∧
        (sharedMsg v ∈ alerts → alerts.count (sharedMsg v) = 1) := by
  intro logs now alerts hne h v
  obtain ⟨agg, ha, rfl⟩ := run_ok_elim logs now alerts hne h
  have hinv := aggInv_aggregate _ _ _ _ ha aggInv_emptyAgg
  have husers := aggregate_users _ _ _ _ ha
  have husers' : ∀ x w, x ∈ getUsers agg.vehicle_users w ↔ touchesVehicle logs w x := by
    intro x w
    rw [husers x w]
    simp [emptyAgg, getUsers, aget]
  constructor
  · rw [mem_concat5]
    constructor
    · rintro (h1 | h2 | h3 | h4 | h5)
      · obtain ⟨u', c', _, _, heq⟩ := (mem_rule1_iff agg _).mp h1
        exact absurd heq (ne_of_head (head_sharedMsg v) (head_excessiveMsg u' c') (by decide))
      · obtain ⟨u', v', t, _, _, heq⟩ := (mem_rule2_iff agg _).mp h2
        exact absurd heq (ne_of_head (head_sharedMsg v) (head_orphanMsg u' v') (by decide))
      · obtain ⟨v', us, hm, hlen, heq⟩ := (mem_rule3_iff agg _).mp h3
        obtain rfl := sharedMsg_inj heq
        have hg : aget agg.vehicle_users v = some us :=
          (mem_iff_aget _ _ _ hinv.2.1).mp hm
        have hus : getUsers agg.vehicle_users v = us := by
          rw [getUsers, hg]
          rfl
        have hnd : us.Nodup := hinv.2.2.1 (v, us) hm
        obtain ⟨a, hma, b, hmb, hab⟩ := (one_lt_length_iff_two_distinct us hnd).mp hlen
        refine ⟨a, b, hab, (husers' a v).mp ?_, (husers' b v).mp ?_⟩ <;> rw [hus] <;>
          assumption
      · obtain ⟨u', v', rec, _, _, _, _, heq⟩ := (mem_rule4_iff _ agg _).mp h4
        exact absurd heq (ne_of_head (head_sharedMsg v) (head_riskMsg v') (by decide))
      · obtain ⟨u', v', t, rec, _, _, _, heq⟩ := (mem_rule5_iff agg _).mp h5
        exact absurd heq (ne_of_head (head_sharedMsg v) (head_lowMsg u' v') (by decide))
    · rintro ⟨u₁, u₂, hab, h1, h2⟩
      have m1 : u₁ ∈ getUsers agg.vehicle_users v := (husers' u₁ v).mpr h1
      have m2 : u₂ ∈ getUsers agg.vehicle_users v := (husers' u₂ v).mpr h2
      have hnenil : getUsers agg.vehicle_users v ≠ [] := by
        intro hnil
        rw [hnil] at m1
        exact absurd m1 (List.not_mem_nil u₁)
      have hg := aget_of_getUsers _ _ hnenil
      have hm : (v, getUsers agg.vehicle_users v) ∈ agg.vehicle_users :=
        (mem_iff_aget _ _ _ hinv.2.1).mpr hg
      have hnd : (getUsers agg.vehicle_users v).Nodup := hinv.2.2.1 _ hm
      have hlen : 1 < (getUsers agg.vehicle_users v).length :=
        (one_lt_length_iff_two_distinct _ hnd).mpr ⟨u₁, m1, u₂, m2, hab⟩
      exact Or.inr (Or.inr (Or.inl ((mem_rule3_iff agg _).mpr ⟨v, _, hm, hlen, rfl⟩)))
  · intro hmem
    exact List.count_eq_one_of_mem (List.nodup_dedup _) hmem

/-- C4: for every non-empty snapshot whose analysis completes, the
ignored-high-severity alert for vehicle `v` is published exactly when some
user `u` has a latest issue record for `(u, v)` with severity `HIGH`,
timestamped strictly more than 7 days before `now`, and no processed
`BOOKING` entry for `(u, v)` exists anywhere in the snapshot. -/
theorem ignored_high_risk_rule_correct :
    ∀ (logs : List RawLog) (now : Int) (alerts : List String),
      logs ≠ [] → run_ueba_analysis logs now = .ok alerts →
      ∀ v, riskMsg v ∈ alerts ↔
        ∃ u rec, latestIssueSpec logs u v = some rec ∧ rec.severity = some "HIGH" ∧
          rec.time < now - 604800 ∧ ∀ t, (u, v, t) ∉ bookingsOf logs := by
  intro logs now alerts hne h v
  obtain ⟨agg, ha, rfl⟩ := run_ok_elim logs now alerts hne h
  have hinv := aggInv_aggregate _ _ _ _ ha aggInv_emptyAgg
  have hissue := aggregate_issue _ _ _ _ ha
  have hissue' : ∀ u' v', aget agg.issue_records (u', v') = latestIssueSpec logs u' v' := by
    intro u' v'
    rw [hissue (u', v')]
    simp [emptyAgg, aget]
  have hbook : agg.booking_records = bookingsOf logs := by
    have hb := aggregate_book _ _ _ _ ha
    simpa [emptyAgg] using hb
  rw [mem_concat5]
  constructor
  · rintro (h1 | h2 | h3 | h4 | h5)
    · obtain ⟨u', c', _, _, heq⟩ := (mem_rule1_iff agg _).mp h1
      exact absurd heq (ne_of_head (head_riskMsg v) (head_excessiveMsg u' c') (by decide))
    · obtain ⟨u', v', t, _, _, heq⟩ := (mem_rule2_iff agg _).mp h2
      exact absurd heq (ne_of_head (head_riskMsg v) (head_orphanMsg u' v') (by decide))
    · obtain ⟨v', us, _, _, heq⟩ := (mem_rule3_iff agg _).mp h3
      exact absurd heq (ne_of_head (head_riskMsg v) (head_sharedMsg v') (by decide))
    · obtain ⟨u', v', rec, hm, hsev, htime, hnb, heq⟩ := (mem_rule4_iff _ agg _).mp h4
      obtain rfl := riskMsg_inj heq
      refine ⟨u', rec, ?_, hsev, htime, ?_⟩
      · rw [← hissue' u' v]
        exact (mem_iff_aget _ _ _ hinv.2.2.2).mp hm
      · intro t hmem
        rw [← hbook] at hmem
        exact hnb (u', v, t) hmem ⟨rfl, rfl⟩
    · obtain ⟨u', v', t, rec, _, _, _, heq⟩ := (mem_rule5_iff agg _).mp h5
      exact absurd heq (ne_of_head (head_riskMsg v) (head_lowMsg u' v') (by decide))
  · rintro ⟨u, rec, hlat, hsev, htime, hnb⟩
    have hg : aget agg.issue_records (u, v) = some rec := by
      rw [hissue']
      exact hlat
    have hm := (mem_iff_aget _ _ _ hinv.2.2.2).mpr hg
    refine Or.inr (Or.inr (Or.inr (Or.inl ((mem_rule4_iff _ agg _).mpr
      ⟨u, v, rec, hm, hsev, htime, ?_, rfl⟩))))
    rintro ⟨b1, b2, b3⟩ hb ⟨rfl, rfl⟩
    rw [hbook] at hb
    exact hnb b3 hb

/-- No processed `ISSUE` entry anywhere in the snapshot matches `(u, v)`. -/
def noIssueFor (logs : List RawLog) (u v : String) : Prop :=
  ∀ l ∈ logs, issueOf u v l = none

theorem latest_none_iff (logs : List RawLog) (u v : String) :
    latestIssueSpec logs u v = none ↔ noIssueFor logs u v := by
  induction logs with
  | nil => simp [latestIssueSpec, noIssueFor]
  | cons l ls ih =>
    rw [latestIssueSpec, Option.or_eq_none]
    unfold noIssueFor at *
    rw [ih]
    constructor
    · rintro ⟨h1, h2⟩ l' hl'
      rcases List.mem_cons.mp hl' with rfl | hl'
      · exact h2
      · exact h1 l' hl'
    · intro h1
      exact ⟨fun l' hl' => h1 l' (List.mem_cons_of_mem _ hl'),
        h1 l (List.mem_cons_self _ _)⟩

/-- C6: for every non-empty snapshot whose analysis completes, the orphan
rule alerts on each processed booking whose (user, vehicle) pair has no
`ISSUE` record anywhere in the snapshot and on no booking whose pair has one;
its emission list is exactly the filter of the booking records by that
condition. -/
theorem orphan_booking_rule_correct :
    ∀ (logs : List RawLog) (now : Int) (alerts : List String),
      logs ≠ [] → run_ueba_analysis logs now = .ok alerts →
      (∀ u v t, (u, v, t) ∈ bookingsOf logs → noIssueFor logs u v →
        orphanMsg u v ∈ alerts) ∧
      (∀ u v, orphanMsg u v ∈ alerts → ∃ u' v' t',
        orphanMsg u v = orphanMsg u' v' ∧ (u', v', t') ∈ bookingsOf logs ∧
          noIssueFor logs u' v') ∧
      (∀ agg, aggregate (now - 300) emptyAgg logs = .ok agg →
        rule2 agg = (bookingsOf logs).filterMap fun p =>
          if latestIssueSpec logs p.1 p.2.1 = none then some (orphanMsg p.1 p.2.1)
          else none) := by
  intro logs now alerts hne h
  obtain ⟨agg, ha, rfl⟩ := run_ok_elim logs now alerts hne h
  have hissue := aggregate_issue _ _ _ _ ha
  have hissue' : ∀ u' v', aget agg.issue_records (u', v') = latestIssueSpec logs u' v' := by
    intro u' v'
    rw [hissue (u', v')]
    simp [emptyAgg, aget]
  have hbook : agg.booking_records = bookingsOf logs := by
    have hb := aggregate_book _ _ _ _ ha
    simpa [emptyAgg] using hb
  refine ⟨?_, ?_, ?_⟩
  · intro u v t hmem hni
    rw [mem_concat5]
    refine Or.inr (Or.inl ((mem_rule2_iff agg _).mpr ⟨u, v, t, ?_, ?_, rfl⟩))
    · rw [hbook]
      exact hmem
    · rw [hissue', latest_none_iff]
      exact hni
  · intro u v hmem
    rw [mem_concat5] at hmem
    rcases hmem with h1 | h2 | h3 | h4 | h5
    · obtain ⟨u', c', _, _, heq⟩ := (mem_rule1_iff agg _).mp h1
      exact absurd heq (ne_of_head (head_orphanMsg u v) (head_excessiveMsg u' c') (by decide))
    · obtain ⟨u', v', t', hmb, hgn, heq⟩ := (mem_rule2_iff agg _).mp h2
      rw [hbook] at hmb
      rw [hissue', latest_none_iff] at hgn
      exact ⟨u', v', t', heq, hmb, hgn⟩
    · obtain ⟨v', us, _, _, heq⟩ := (mem_rule3_iff agg _).mp h3
      exact absurd heq (ne_of_head (head_orphanMsg u v) (head_sharedMsg v') (by decide))
    · obtain ⟨u', v', rec, _, _, _, _, heq⟩ := (mem_rule4_iff _ agg _).mp h4
      exact absurd heq (ne_of_head (head_orphanMsg u v) (head_riskMsg v') (by decide))
    · obtain ⟨u', v', t', rec, _, _, _, heq⟩ := (mem_rule5_iff agg _).mp h5
      exact absurd heq (ne_of_last (last_orphanMsg u v) (last_lowMsg u' v') (by decide))
  · intro agg' ha'
    rw [ha] at ha'
    injection ha' with ha'
    subst ha'
    rw [rule2, hbook]
    apply List.filterMap_congr
    intro p _
    rw [hissue' p.1 p.2.1]

/-- C5: for every non-empty snapshot whose analysis completes, the
low-certainty rule alerts on each processed booking whose latest matching
issue record has certainty strictly below 50 and on no other booking; an
issue whose payload carries no certainty value gets certainty 100. -/
theorem low_certainty_rule_correct :
    ∀ (logs : List RawLog) (now : Int) (alerts : List String),
      logs ≠ [] → run_ueba_analysis logs now = .ok alerts →
      (∀ u v t rec, (u, v, t) ∈ bookingsOf logs → latestIssueSpec logs u v = some rec →
        rec.certainty < 50 → lowMsg u v ∈ alerts) ∧
      (∀ u v, lowMsg u v ∈ alerts → ∃ u' v' t' rec,
        lowMsg u v = lowMsg u' v' ∧ (u', v', t') ∈ bookingsOf logs ∧
          latestIssueSpec logs u' v' = some rec ∧ rec.certainty < 50) ∧
      (∀ d : LogData, d.certainty = none → effCert d = 100) ∧
      (∀ agg, aggregate (now - 300) emptyAgg logs = .ok agg →
        rule5 agg = (bookingsOf logs).filterMap fun p =>
          match latestIssueSpec logs p.1 p.2.1 with
          | some rec => if rec.certainty < 50 then some (lowMsg p.1 p.2.1) else none
          | none => none) := by
  intro logs now alerts hne h
  obtain ⟨agg, ha, rfl⟩ := run_ok_elim logs now alerts hne h
  have hissue := aggregate_issue _ _ _ _ ha
  have hissue' : ∀ u' v', aget agg.issue_records (u', v') = latestIssueSpec logs u' v' := by
    intro u' v'
    rw [hissue (u', v')]
    simp [emptyAgg, aget]
  have hbook : agg.booking_records = bookingsOf logs := by
    have hb := aggregate_book _ _ _ _ ha
    simpa [emptyAgg] using hb
  refine ⟨?_, ?_, ?_, ?_⟩
  · intro u v t rec hmem hlat hcert
    rw [mem_concat5]
    refine Or.inr (Or.inr (Or.inr (Or.inr ((mem_rule5_iff agg _).mpr
      ⟨u, v, t, rec, ?_, ?_, hcert, rfl⟩))))
    · rw [hbook]
      exact hmem
    · rw [hissue']
      exact hlat
  · intro u v hmem
    rw [mem_concat5] at hmem
    rcases hmem with h1 | h2 | h3 | h4 | h5
    · obtain ⟨u', c', _, _, heq⟩ := (mem_rule1_iff agg _).mp h1
      exact absurd heq (ne_of_head (head_lowMsg u v) (head_excessiveMsg u' c') (by decide))
    · obtain ⟨u', v', t', _, _, heq⟩ := (mem_rule2_iff agg _).mp h2
      exact absurd heq (ne_of_last (last_lowMsg u v) (last_orphanMsg u' v') (by decide))
    · obtain ⟨v', us, _, _, heq⟩ := (mem_rule3_iff agg _).mp h3
      exact absurd heq (ne_of_head (head_lowMsg u v) (head_sharedMsg v') (by decide))
    · obtain ⟨u', v', rec, _, _, _, _, heq⟩ := (mem_rule4_iff _ agg _).mp h4
      exact absurd heq (ne_of_head (head_lowMsg u v) (head_riskMsg v') (by decide))
    · obtain ⟨u', v', t', rec, hmb, hg, hcert, heq⟩ := (mem_rule5_iff agg _).mp h5
      rw [hbook] at hmb
      rw [hissue'] at hg
      exact ⟨u', v', t', rec, heq, hmb, hg, hcert⟩
  · intro d hd
    simp [effCert, hd]
  · intro agg' ha'
    rw [ha] at ha'
    injection ha' with ha'
    subst ha'
    rw [rule5, hbook]
    apply List.filterMap_congr
    intro p _
    rw [hissue' p.1 p.2.1]

/-- C9: a published alert list holds no duplicate strings, and re-running the
engine on the same snapshot with the same evaluation instant reproduces it. -/
theorem alerts_nodup_and_deterministic :
    ∀ (logs : List RawLog) (now : Int) (alerts : List String),
      run_ueba_analysis logs now = .ok alerts →
      alerts.Nodup ∧
        ∀ alerts', run_ueba_analysis logs now = .ok alerts' → alerts' = alerts := by
  intro logs now alerts h
  refine ⟨run_ueba_nodup _ _ _ h, ?_⟩
  intro alerts' h'
  rw [h] at h'
  injection h' with h'
  exact h'.symm

/-- A failure mode of the log fetch: non-200 status, non-list body, or a
raised transport exception. -/
def fetchFails : FetchOutcome → Prop
  | .success status payload => status ≠ 200 ∨ payload = .nonList
  | .exception => True

/-- C1: on any failed fetch the adopted snapshot is empty whatever was cached
before, and the analysis of that empty snapshot publishes no alerts. -/
theorem failed_fetch_empty_and_no_alerts :
    ∀ (prev : List RawLog) (o : FetchOutcome) (now : Int), fetchFails o →
      fetch_logs prev o = [] ∧ run_ueba_analysis (fetch_logs prev o) now = .ok [] := by
  intro prev o now hf
  have he : fetch_logs prev o = [] := by
    cases o with
    | success status payload =>
      rcases hf with hs | hp
      · simp [fetch_logs, hs]
      · subst hp
        simp [fetch_logs]
    | exception => rfl
  rw [he]
  exact ⟨rfl, rfl⟩

/-- C8: every health pass reports exactly the configured services, once each,
classifying ONLINE on HTTP 200, ERROR with the code otherwise, and DOWN on a
raised exception; probing is total, so no failure escapes. -/
theorem health_report_covers_all_services :
    ∀ probe : String → ProbeResult,
      ((check_health SERVICES probe).map Prod.fst = SERVICES ∧ SERVICES.Nodup) ∧
      ∀ name st, (name, st) ∈ check_health SERVICES probe →
        (probe name = .response 200 → st = "ONLINE") ∧
        (∀ code, probe name = .response code → code ≠ 200 →
          st = "ERROR " ++ natStr code) ∧
        (probe name = .failure → st = "DOWN") := by
  intro probe
  refine ⟨⟨by simp [check_health, Function.comp_def], by decide⟩, ?_⟩
  intro name st hm
  rw [check_health, List.mem_map] at hm
  obtain ⟨n, hn, heq⟩ := hm
  have h1 : n = name := congrArg Prod.fst heq
  have h2 : classify_probe (probe n) = st := congrArg Prod.snd heq
  subst h1
  refine ⟨?_, ?_, ?_⟩
  · intro hp
    rw [← h2, hp]
    rfl
  · intro code hp hc
    rw [← h2, hp]
    simp [classify_probe, hc]
  · intro hp
    rw [← h2, hp]
    rfl

/-- C10: in the aggregation step, a `BOOKING` entry timestamped exactly at
`now - 300` (the window's lower boundary) leaves the user's booking count
unchanged, while one timestamped after `now` (the future) increments it. -/
theorem booking_window_boundary :
    ∀ (now t : Int) (u v : String) (d : LogData) (agg agg' : Agg),
      processLog (now - 300) agg ⟨.valid t, some u, some v, some "BOOKING", d⟩ = .ok agg' →
      ((t = now - 300 →
        getCount agg'.user_booking_count u = getCount agg.user_booking_count u) ∧
       (now < t →
        getCount agg'.user_booking_count u = getCount agg.user_booking_count u + 1)) := by
  intro now t u v d agg agg' h
  simp only [processLog] at h
  injection h with h
  subst h
  constructor
  · intro ht
    rw [stepAgg_count, if_neg (fun hc => absurd hc.2.2 (by omega))]
    omega
  · intro ht
    rw [stepAgg_count, if_pos ⟨rfl, rfl, by omega⟩]

/-! ### Skipping and aborting in the aggregation loop -/

theorem processLog_skip (fma : Int) (agg : Agg) (e : RawLog)
    (h : e.timestamp = .missing ∨ e.timestamp = .malformed) :
    processLog fma agg e = .ok agg := by
  obtain ⟨ts, uid, vid, lty, d⟩ := e
  cases ts with
  | missing => rfl
  | malformed => rfl
  | valid t => rcases h with h | h <;> simp at h

theorem aggregate_skip (fma : Int) (e : RawLog)
    (he : e.timestamp = .missing ∨ e.timestamp = .malformed) :
    ∀ (l1 l2 : List RawLog) (agg : Agg),
      aggregate fma agg (l1 ++ e :: l2) = aggregate fma agg (l1 ++ l2) := by
  intro l1
  induction l1 with
  | nil =>
    intro l2 agg
    simp only [List.nil_append, aggregate, processLog_skip fma agg e he]
  | cons l ls ih =>
    intro l2 agg
    simp only [List.cons_append, aggregate]
    cases hp : processLog fma agg l with
    | error e' => rfl
    | ok agg₁ => exact ih l2 agg₁

/-- A `BOOKING` entry with a parsed timestamp but no `userId` key. -/
def missingUserLog : RawLog :=
  ⟨.valid 950, none, some "v1", some "BOOKING", ⟨none, none⟩⟩

/-- C2 as stated is false on the code: an entry missing a required common
field is not skipped — reading `log["userId"]` happens outside the `try`, so
the whole batch's evaluation aborts even though another entry was fine. -/
theorem missing_field_aborts_batch :
    run_ueba_analysis [sampleBooking "u1" "v1" 900, missingUserLog] 1000 = .error () := rfl

/-- C2 amended: an entry whose timestamp is missing or unparsable is skipped
individually — removing it does not change the published result — while an
entry with a parsed timestamp but a missing `userId`, `vehicleId`, or
`logType` aborts the whole batch's evaluation. -/
theorem malformed_timestamp_skipped_amended :
    ∀ (l1 l2 : List RawLog) (e : RawLog) (now : Int),
      ((e.timestamp = .missing ∨ e.timestamp = .malformed) →
        run_ueba_analysis (l1 ++ e :: l2) now = run_ueba_analysis (l1 ++ l2) now) ∧
      (∀ t, e.timestamp = .valid t →
        (e.userId = none ∨ e.vehicleId = none ∨ e.logType = none) →
        run_ueba_analysis (l1 ++ e :: l2) now = .error ()) := by
  intro l1 l2 e now
  constructor
  · intro hts
    by_cases h12 : l1 ++ l2 = []
    · rw [List.append_eq_nil] at h12
      obtain ⟨rfl, rfl⟩ := h12
      rw [run_ueba_analysis, run_ueba_analysis, if_neg (by simp), if_pos (by simp)]
      simp only [List.nil_append]
      rw [show aggregate (now - 300) emptyAgg [e] = .ok emptyAgg from by
        simp only [aggregate, processLog_skip (now - 300) emptyAgg e hts]]
      rfl
    · rw [run_ueba_analysis, run_ueba_analysis, if_neg (by simp), if_neg h12,
        aggregate_skip (now - 300) e hts l1 l2 emptyAgg]
  · intro t hts hfield
    have herr : ∀ agg : Agg, processLog (now - 300) agg e = .error () := by
      intro agg
      obtain ⟨ts, uid, vid, lty, d⟩ := e
      have hts' : ts = .valid t := hts
      subst hts'
      rcases hfield with hf | hf | hf
      · have hf' : uid = none := hf
        subst hf'
        cases vid <;> cases lty <;> rfl
      · have hf' : vid = none := hf
        subst hf'
        cases uid <;> cases lty <;> rfl
      · have hf' : lty = none := hf
        subst hf'
        cases uid <;> cases vid <;> rfl
    have hagg : ∀ (l1' : List RawLog) (agg : Agg),
        aggregate (now - 300) agg (l1' ++ e :: l2) = .error () := by
      intro l1'
      induction l1' with
      | nil =>
        intro agg
        simp only [List.nil_append, aggregate, herr agg]
      | cons l ls ih =>
        intro agg
        simp only [List.cons_append, aggregate]
        cases hp : processLog (now - 300) agg l with
        | error e' =>
          simp only [hp]
        | ok agg₁ =>
          simp only [hp]
          exact ih agg₁
    have hrw := hagg l1 emptyAgg
    rw [run_ueba_analysis, if_neg (by simp), hrw]

/-! ### Witnesses on concrete inputs -/

/-- Two entries for the same vehicle by different users. -/
def sharedLogs : List RawLog :=
  [sampleBooking "A" "vS" 10, sampleIssue "B" "vS" 20 "LOW" none]

/-- An 8-day-old HIGH issue with no booking anywhere. -/
def staleIssueLogs : List RawLog :=
  [sampleIssue "u1" "v1" (-700000) "HIGH" none]

/-- A booking with no issue record anywhere. -/
def orphanLogs : List RawLog :=
  [sampleBooking "u1" "v1" 900]

/-- A certainty-40 issue followed by a booking for the same pair. -/
def lowCertLogs : List RawLog :=
  [sampleIssue "u1" "v1" 100 "LOW" (some 40), sampleBooking "u1" "v1" 900]

/-- An entry whose timestamp fails to parse. -/
def badTsLog : RawLog :=
  ⟨.malformed, none, none, none, ⟨none, none⟩⟩

theorem excessive_booking_rule_witness :
    excessiveMsg "u1" 4 ∈
      ["Anomaly: u1 created 4 bookings in 5 minutes",
       "Suspicious: u1 booked v1 without ISSUE record"] ↔
      (4 = wCountF (1000 - 300) "u1" burstLogs ∧ 3 < 4) :=
  excessive_booking_rule_correct burstLogs 1000
    ["Anomaly: u1 created 4 bookings in 5 minutes",
     "Suspicious: u1 booked v1 without ISSUE record"] (by decide) rfl "u1" 4

theorem shared_vehicle_rule_witness :
    (sharedMsg "vS" ∈
        ["Suspicious: A booked vS without ISSUE record",
         "Ownership anomaly: Vehicle vS used by multiple users"] ↔
      ∃ u₁ u₂, u₁ ≠ u₂ ∧ touchesVehicle sharedLogs "vS" u₁ ∧
        touchesVehicle sharedLogs "vS" u₂) ∧
    (sharedMsg "vS" ∈
        ["Suspicious: A booked vS without ISSUE record",
         "Ownership anomaly: Vehicle vS used by multiple users"] →
      (["Suspicious: A booked vS without ISSUE record",
        "Ownership anomaly: Vehicle vS used by multiple users"] : List String).count
          (sharedMsg "vS") = 1) :=
  shared_vehicle_rule_correct sharedLogs 1000
    ["Suspicious: A booked vS without ISSUE record",
     "Ownership anomaly: Vehicle vS used by multiple users"] (by decide) rfl "vS"

theorem ignored_high_risk_rule_witness :
    riskMsg "v1" ∈ ["Risk: HIGH severity issue ignored for v1"] ↔
      ∃ u rec, latestIssueSpec staleIssueLogs u "v1" = some rec ∧
        rec.severity = some "HIGH" ∧ rec.time < 0 - 604800 ∧
        ∀ t, (u, "v1", t) ∉ bookingsOf staleIssueLogs :=
  ignored_high_risk_rule_correct staleIssueLogs 0
    ["Risk: HIGH severity issue ignored for v1"] (by decide) rfl "v1"

theorem orphan_booking_rule_witness :
    orphanMsg "u1" "v1" ∈ ["Suspicious: u1 booked v1 without ISSUE record"] :=
  (orphan_booking_rule_correct orphanLogs 1000
    ["Suspicious: u1 booked v1 without ISSUE record"] (by decide) rfl).1
    "u1" "v1" 900 (by decide)
    (by intro l hl; simp only [orphanLogs] at hl; rw [List.mem_singleton] at hl; subst hl; rfl)

theorem low_certainty_rule_witness :
    lowMsg "u1" "v1" ∈ ["Suspicious: u1 booked v1 despite low certainty"] :=
  (low_certainty_rule_correct lowCertLogs 1000
    ["Suspicious: u1 booked v1 despite low certainty"] (by decide) rfl).1
    "u1" "v1" 900 ⟨100, some "LOW", 40⟩ (by decide) (by decide) (by decide)

theorem alerts_nodup_witness :
    (["Anomaly: u1 created 4 bookings in 5 minutes",
      "Suspicious: u1 booked v1 without ISSUE record"] : List String).Nodup ∧
    ∀ alerts', run_ueba_analysis burstLogs 1000 = .ok alerts' →
      alerts' = ["Anomaly: u1 created 4 bookings in 5 minutes",
        "Suspicious: u1 booked v1 without ISSUE record"] :=
  alerts_nodup_and_deterministic burstLogs 1000
    ["Anomaly: u1 created 4 bookings in 5 minutes",
     "Suspicious: u1 booked v1 without ISSUE record"] rfl

theorem failed_fetch_witness :
    fetch_logs [sampleBooking "u1" "v1" 900] .exception = [] ∧
    run_ueba_analysis (fetch_logs [sampleBooking "u1" "v1" 900] .exception) 5 = .ok [] :=
  failed_fetch_empty_and_no_alerts [sampleBooking "u1" "v1" 900] .exception 5 trivial

theorem health_report_witness :
    (check_health SERVICES (fun _ => ProbeResult.failure)).map Prod.fst = SERVICES ∧
    ("DOWN" : String) = "DOWN" :=
  ⟨(health_report_covers_all_services (fun _ => ProbeResult.failure)).1.1,
   ((health_report_covers_all_services (fun _ => ProbeResult.failure)).2 "Admin_API" "DOWN"
      (by decide)).2.2 rfl⟩

theorem booking_window_witness :
    (getCount (Agg.mk [] [("v", ["u"])] [] [("u", "v", 700)]).user_booking_count "u" =
      getCount emptyAgg.user_booking_count "u") ∧
    (getCount (Agg.mk [("u", 1)] [("v", ["u"])] [] [("u", "v", 1001)]).user_booking_count "u" =
      getCount emptyAgg.user_booking_count "u" + 1) :=
  ⟨(booking_window_boundary 1000 700 "u" "v" ⟨none, none⟩ emptyAgg
      (Agg.mk [] [("v", ["u"])] [] [("u", "v", 700)]) rfl).1 (by decide),
   (booking_window_boundary 1000 1001 "u" "v" ⟨none, none⟩ emptyAgg
      (Agg.mk [("u", 1)] [("v", ["u"])] [] [("u", "v", 1001)]) rfl).2 (by decide)⟩

theorem malformed_timestamp_witness :
    run_ueba_analysis [badTsLog, sampleBooking "u1" "v1" 900] 1000 =
      run_ueba_analysis [sampleBooking "u1" "v1" 900] 1000 ∧
    run_ueba_analysis [missingUserLog] 0 = .error () :=
  ⟨(malformed_timestamp_skipped_amended [] [sampleBooking "u1" "v1" 900] badTsLog 1000).1
      (Or.inr rfl),
   (malformed_timestamp_skipped_amended [] [] missingUserLog 0).2 950 rfl (Or.inl rfl)⟩
